import Mathlib

/-!
Verification of the HR_Interviewer voice-session core against its
natural-language specification.  The TypeScript source is shallowly
embedded: audio samples become rationals (each value the code touches is
an exactly representable dyadic, so rational arithmetic is faithful),
byte strings become lists of naturals, and the event-driven session
logic becomes explicit state-passing functions.
-/

namespace HRInterviewer

/-! ## Audio codec (src/utils/audio.ts) -/

/-- JavaScript integer conversion truncates toward zero. -/
def jsTrunc (q : ℚ) : ℤ :=
  if q < 0 then ⌈q⌉ else ⌊q⌋

/-- Storing an arbitrary numeric value into an `Int16Array` slot applies
ToInt16: truncate toward zero, then wrap modulo 2^16 into [-32768, 32767]. -/
def toInt16 (q : ℚ) : ℤ :=
  let m := jsTrunc q % 65536
  if m < 32768 then m else m - 65536

/-- One sample of `float32ArrayToBase64` (audio.ts lines 24-25):
clamp to [-1,1], scale negatives by 0x8000 and non-negatives by 0x7FFF,
store as int16. -/
def sampleToInt16 (x : ℚ) : ℤ :=
  let s := max (-1) (min 1 x)
  if s < 0 then toInt16 (s * 32768) else toInt16 (s * 32767)

/-- Little-endian serialization of one int16 as two bytes
(the `Uint8Array` view over the `Int16Array` buffer). -/
def int16ToBytes (v : ℤ) : List ℕ :=
  let u := (v % 65536).toNat
  [u % 256, u / 256]

def int16sToBytes : List ℤ → List ℕ
  | [] => []
  | v :: rest => int16ToBytes v ++ int16sToBytes rest

/-- Reading an `Int16Array` view over a byte buffer: pairs of bytes,
little-endian, two's complement.  An odd byte count makes the
`Int16Array` constructor throw, modelled as `none`. -/
def bytesToInt16s : List ℕ → Option (List ℤ)
  | [] => some []
  | [_] => none
  | b0 :: b1 :: rest =>
    (bytesToInt16s rest).map (fun l =>
      (if b0 + 256 * b1 < 32768 then (b0 + 256 * b1 : ℤ)
       else (b0 + 256 * b1 : ℤ) - 65536) :: l)

/-- The base64 alphabet used by `btoa` and `atob`. -/
def b64Alphabet : List Char :=
  "ABCDEFGHIJKLMNOPQRSTUVWXYZabcdefghijklmnopqrstuvwxyz0123456789+/".toList

def sextetChar (n : ℕ) : Char := b64Alphabet.getD n 'A'

def charSextet (c : Char) : Option ℕ := b64Alphabet.findIdx? (· = c)

/-- The platform `btoa`: binary string (list of bytes) to base64 text,
three bytes per four characters, padded with `=`. -/
def btoa : List ℕ → List Char
  | [] => []
  | [a] => [sextetChar (a / 4), sextetChar (a % 4 * 16), '=', '=']
  | [a, b] => [sextetChar (a / 4), sextetChar (a % 4 * 16 + b / 16),
               sextetChar (b % 16 * 4), '=']
  | a :: b :: c :: rest =>
    sextetChar (a / 4) :: sextetChar (a % 4 * 16 + b / 16) ::
    sextetChar (b % 16 * 4 + c / 64) :: sextetChar (c % 64) :: btoa rest

/-- The platform `atob`: base64 text back to the byte list; an invalid
string throws, modelled as `none`. -/
def atob : List Char → Option (List ℕ)
  | [] => some []
  | c1 :: c2 :: c3 :: c4 :: rest =>
    if c3 = '=' ∧ c4 = '=' ∧ rest = [] then
      match charSextet c1, charSextet c2 with
      | some s1, some s2 => some [s1 * 4 + s2 / 16]
      | _, _ => none
    else if c4 = '=' ∧ rest = [] then
      match charSextet c1, charSextet c2, charSextet c3 with
      | some s1, some s2, some s3 =>
        some [s1 * 4 + s2 / 16, s2 % 16 * 16 + s3 / 4]
      | _, _, _ => none
    else
      match charSextet c1, charSextet c2, charSextet c3, charSextet c4 with
      | some s1, some s2, some s3, some s4 =>
        (atob rest).map (fun l =>
          (s1 * 4 + s2 / 16) :: (s2 % 16 * 16 + s3 / 4) :: (s3 % 4 * 64 + s4) :: l)
      | _, _, _, _ => none
  | _ => none

/-- audio.ts `float32ArrayToBase64`: clamp, scale, store int16,
view as bytes, base64-encode. -/
def float32ArrayToBase64 (data : List ℚ) : List Char :=
  btoa (int16sToBytes (data.map sampleToInt16))

/-- audio.ts `base64ToFloat32Array`: base64-decode, view the bytes as an
`Int16Array`, divide each int16 by 32768.0. -/
def base64ToFloat32Array (base64 : List Char) : Option (List ℚ) :=
  (atob base64).bind fun bytes =>
    (bytesToInt16s bytes).map (List.map (fun v : ℤ => (v : ℚ) / 32768))

/-! ## Codec round-trip lemmas -/

theorem charSextet_sextetChar : ∀ n < 64, charSextet (sextetChar n) = some n := by
  decide

theorem sextetChar_ne_pad : ∀ n < 64, sextetChar n ≠ '=' := by
  decide

theorem atob_btoa (bs : List ℕ) (h : ∀ b ∈ bs, b < 256) :
    atob (btoa bs) = some bs := by
  induction bs using btoa.induct with
  | case1 => rfl
  | case2 a =>
    have ha : a < 256 := h a (by simp)
    simp only [btoa, atob]
    split
    · rw [charSextet_sextetChar _ (by omega), charSextet_sextetChar _ (by omega)]
      simp only [Option.some.injEq, List.cons.injEq, and_true]
      omega
    · next hcond => exact absurd (by simp) hcond
  | case3 a b =>
    have ha : a < 256 := h a (by simp)
    have hb : b < 256 := h b (by simp)
    simp only [btoa, atob]
    split
    · next hcond =>
      exact absurd hcond.1 (sextetChar_ne_pad (b % 16 * 4) (by omega))
    · split
      · rw [charSextet_sextetChar _ (by omega), charSextet_sextetChar _ (by omega),
            charSextet_sextetChar _ (by omega)]
        simp only [Option.some.injEq, List.cons.injEq, and_true]
        constructor <;> omega
      · next hcond => exact absurd (by simp) hcond
  | case4 a b c rest ih =>
    have ha : a < 256 := h a (by simp)
    have hb : b < 256 := h b (by simp)
    have hc : c < 256 := h c (by simp)
    have hrest : ∀ x ∈ rest, x < 256 := by
      intro x hx; exact h x (by simp [hx])
    simp only [btoa, atob]
    split
    · next hcond =>
      exact absurd hcond.1 (sextetChar_ne_pad (b % 16 * 4 + c / 64) (by omega))
    · split
      · next hcond =>
        exact absurd hcond.1 (sextetChar_ne_pad (c % 64) (by omega))
      · rw [charSextet_sextetChar _ (by omega), charSextet_sextetChar _ (by omega),
            charSextet_sextetChar _ (by omega), charSextet_sextetChar _ (by omega)]
        rw [ih hrest]
        simp only [Option.map_some', Option.some.injEq, List.cons.injEq]
        exact ⟨by omega, by omega, by omega, trivial⟩

theorem int16sToBytes_lt (vs : List ℤ) :
    ∀ b ∈ int16sToBytes vs, b < 256 := by
  induction vs with
  | nil => intro b hb; simp [int16sToBytes] at hb
  | cons v rest ih =>
    intro b hb
    simp only [int16sToBytes, int16ToBytes, List.cons_append, List.nil_append,
      List.mem_cons] at hb
    have h65536 : (v % 65536).toNat < 65536 := by omega
    rcases hb with h | h | h
    · omega
    · omega
    · exact ih b h

theorem int16sToBytes_length (vs : List ℤ) :
    (int16sToBytes vs).length = 2 * vs.length := by
  induction vs with
  | nil => rfl
  | cons v rest ih =>
    simp only [int16sToBytes, int16ToBytes, List.cons_append, List.nil_append,
      List.length_cons, ih]
    omega

theorem bytesToInt16s_int16sToBytes (vs : List ℤ)
    (h : ∀ v ∈ vs, -32768 ≤ v ∧ v < 32768) :
    bytesToInt16s (int16sToBytes vs) = some vs := by
  induction vs with
  | nil => rfl
  | cons v rest ih =>
    have hv := h v (by simp)
    have hrest : ∀ x ∈ rest, -32768 ≤ x ∧ x < 32768 := by
      intro x hx; exact h x (by simp [hx])
    simp only [int16sToBytes, int16ToBytes, List.cons_append, List.append_eq,
      List.nil_append, bytesToInt16s]
    rw [ih hrest]
    simp only [Option.map_some', Option.some.injEq, List.cons.injEq, and_true]
    omega

theorem clamp_mem (x : ℚ) : -1 ≤ max (-1) (min 1 x) ∧ max (-1) (min 1 x) ≤ 1 := by
  constructor
  · exact le_max_left _ _
  · exact max_le (by norm_num) (min_le_left _ _)

theorem toInt16_eq_jsTrunc (q : ℚ) (h1 : -32768 ≤ jsTrunc q) (h2 : jsTrunc q < 32768) :
    toInt16 q = jsTrunc q := by
  simp only [toInt16]
  split <;> omega

/-- On a clamped sample the ToInt16 wrap never fires: the stored value is
plain truncation toward zero of the scaled sample, and it lies in the
int16 range. -/
theorem sampleToInt16_spec (x : ℚ) :
    sampleToInt16 x =
      (if max (-1) (min 1 x) < 0 then ⌈max (-1) (min 1 x) * 32768⌉
       else ⌊max (-1) (min 1 x) * 32767⌋) ∧
    -32768 ≤ sampleToInt16 x ∧ sampleToInt16 x ≤ 32767 := by
  obtain ⟨hlo, hhi⟩ := clamp_mem x
  set s := max (-1) (min 1 x) with hs
  by_cases hneg : s < 0
  · have hq1 : (-32768 : ℚ) ≤ s * 32768 := by nlinarith
    have hq2 : s * 32768 < 0 := by nlinarith
    have htr : jsTrunc (s * 32768) = ⌈s * 32768⌉ := by
      simp only [jsTrunc, if_pos hq2]
    have hc1 : (-32768 : ℤ) ≤ ⌈s * 32768⌉ := by
      have h := Int.le_ceil (s * 32768)
      have h2 : ((-32768 : ℤ) : ℚ) ≤ (⌈s * 32768⌉ : ℚ) := by push_cast; linarith
      exact_mod_cast h2
    have hc2 : ⌈s * 32768⌉ ≤ 0 := Int.ceil_le.mpr (le_of_lt hq2)
    have hstore : sampleToInt16 x = ⌈s * 32768⌉ := by
      simp only [sampleToInt16, ← hs, if_pos hneg]
      rw [toInt16_eq_jsTrunc _ (htr ▸ hc1) (htr ▸ (by omega))]
      exact htr
    refine ⟨by rw [hstore, if_pos hneg], by rw [hstore]; omega⟩
  · push_neg at hneg
    have hq1 : (0 : ℚ) ≤ s * 32767 := by nlinarith
    have hq2 : s * 32767 ≤ 32767 := by nlinarith
    have htr : jsTrunc (s * 32767) = ⌊s * 32767⌋ := by
      simp only [jsTrunc, if_neg (not_lt.mpr hq1)]
    have hf1 : (0 : ℤ) ≤ ⌊s * 32767⌋ := Int.le_floor.mpr (by exact_mod_cast hq1)
    have hf2 : ⌊s * 32767⌋ ≤ 32767 := by
      have := Int.floor_le (s * 32767)
      have : (⌊s * 32767⌋ : ℚ) ≤ 32767 := le_trans this hq2
      exact_mod_cast this
    have hstore : sampleToInt16 x = ⌊s * 32767⌋ := by
      simp only [sampleToInt16, ← hs, if_neg (not_lt.mpr hneg)]
      rw [toInt16_eq_jsTrunc _ (htr ▸ (by omega)) (htr ▸ (by omega))]
      exact htr
    refine ⟨by rw [hstore, if_neg (not_lt.mpr hneg)], by rw [hstore]; omega⟩

/-- Quantization error of one encode/decode round trip, for an
in-range sample: strictly below 2/32768. -/
theorem sampleToInt16_quant (x : ℚ) (h1 : -1 ≤ x) (h2 : x ≤ 1) :
    |(sampleToInt16 x : ℚ) / 32768 - x| < 2 / 32768 := by
  have hclamp : max (-1) (min 1 x) = x := by
    rw [min_eq_right h2, max_eq_right h1]
  obtain ⟨heq, _, _⟩ := sampleToInt16_spec x
  rw [hclamp] at heq
  by_cases hneg : x < 0
  · rw [heq, if_pos hneg]
    have hceil1 : x * 32768 ≤ (⌈x * 32768⌉ : ℚ) := Int.le_ceil _
    have hceil2 : (⌈x * 32768⌉ : ℚ) < x * 32768 + 1 := Int.ceil_lt_add_one _
    rw [abs_of_nonneg (by linarith [hceil1])]
    linarith [hceil2]
  · push_neg at hneg
    rw [heq, if_neg (not_lt.mpr hneg)]
    have hfl1 : (⌊x * 32767⌋ : ℚ) ≤ x * 32767 := Int.floor_le _
    have hfl2 : x * 32767 - 1 < (⌊x * 32767⌋ : ℚ) := Int.sub_one_lt_floor _
    rw [abs_of_nonpos (by linarith [hfl1])]
    linarith [hfl2]

/-- Full pipeline round trip: encoding always decodes, to the per-sample
quantized values. -/
theorem roundtrip (data : List ℚ) :
    base64ToFloat32Array (float32ArrayToBase64 data) =
      some (data.map (fun x => (sampleToInt16 x : ℚ) / 32768)) := by
  have hrange : ∀ v ∈ data.map sampleToInt16, -32768 ≤ v ∧ v < 32768 := by
    intro v hv
    simp only [List.mem_map] at hv
    obtain ⟨x, _, rfl⟩ := hv
    obtain ⟨_, hr1, hr2⟩ := sampleToInt16_spec x
    exact ⟨hr1, by omega⟩
  unfold base64ToFloat32Array float32ArrayToBase64
  rw [atob_btoa _ (int16sToBytes_lt _)]
  simp only [Option.some_bind]
  rw [bytesToInt16s_int16sToBytes _ hrange]
  simp only [Option.map_some', Option.some.injEq, List.map_map]
  rfl

/-- The stored int16 exactly as the specification sentence describes it:
clamp to [-1,1], multiply a negative clamped sample by 32768 and a
non-negative one by 32767, truncate to an integer. -/
def specStoredInt16 (x : ℚ) : ℤ :=
  jsTrunc (max (-1) (min 1 x) * (if max (-1) (min 1 x) < 0 then 32768 else 32767))

theorem sampleToInt16_eq_spec (x : ℚ) : sampleToInt16 x = specStoredInt16 x := by
  obtain ⟨heq, _, _⟩ := sampleToInt16_spec x
  obtain ⟨hlo, hhi⟩ := clamp_mem x
  rw [heq]
  unfold specStoredInt16 jsTrunc
  set s := max (-1) (min 1 x)
  by_cases hneg : s < 0
  · rw [if_pos hneg, if_pos hneg, if_pos (by nlinarith)]
  · push_neg at hneg
    rw [if_neg (not_lt.mpr hneg), if_neg (not_lt.mpr hneg),
        if_neg (not_lt.mpr (by nlinarith))]

/-! ## Claim theorems for the codec -/

/-- C1, the claim as frozen, is false: for the in-range sample
32769/65536 the encode/decode round trip returns 16383/32768, which is
3/65536 away from the source — more than the claimed 1/32768. -/
theorem c1_counterexample :
    ((-1 : ℚ) ≤ 32769 / 65536 ∧ (32769 : ℚ) / 65536 ≤ 1) ∧
    base64ToFloat32Array (float32ArrayToBase64 [32769 / 65536]) =
      some [16383 / 32768] ∧
    ¬ |(16383 : ℚ) / 32768 - 32769 / 65536| ≤ 1 / 32768 := by
  have hcl : max (-1 : ℚ) (min 1 (32769 / 65536)) = 32769 / 65536 := by
    rw [min_eq_right (by norm_num), max_eq_right (by norm_num)]
  have hst : sampleToInt16 (32769 / 65536) = 16383 := by
    obtain ⟨heq, _, _⟩ := sampleToInt16_spec (32769 / 65536)
    rw [heq, hcl, if_neg (by norm_num)]
    rw [show (32769 : ℚ) / 65536 * 32767 = 16383 + 65535 / 65536 by norm_num]
    rw [Int.floor_eq_iff]
    norm_num
  refine ⟨by norm_num, ?_, ?_⟩
  · rw [roundtrip [32769 / 65536]]
    simp [hst]
  · rw [abs_sub_comm, abs_of_nonneg (by norm_num)]
    norm_num

/-- C1 (amended): for every input whose samples lie in [-1,1], decoding
the encoded chunk yields an array of the same length whose i-th sample
differs from the i-th source sample by less than 2/32768 (the true
quantization bound of the asymmetric 32767-up / 32768-down scaling). -/
theorem c1_roundtrip_quant (data : List ℚ) (h : ∀ x ∈ data, -1 ≤ x ∧ x ≤ 1) :
    ∃ out, base64ToFloat32Array (float32ArrayToBase64 data) = some out ∧
      out.length = data.length ∧
      ∀ i, i < data.length → |out.getD i 0 - data.getD i 0| < 2 / 32768 := by
  refine ⟨_, roundtrip data, by simp, ?_⟩
  intro i hi
  have hlen : i < (data.map (fun x => (sampleToInt16 x : ℚ) / 32768)).length := by
    simpa using hi
  rw [List.getD_eq_getElem _ _ hlen, List.getD_eq_getElem _ _ hi, List.getElem_map]
  obtain ⟨h1, h2⟩ := h data[i] (List.getElem_mem hi)
  exact sampleToInt16_quant data[i] h1 h2

theorem c1_roundtrip_quant_witness :
    ∃ out, base64ToFloat32Array (float32ArrayToBase64 [1 / 2]) = some out ∧
      out.length = ([1 / 2] : List ℚ).length ∧
      ∀ i, i < ([1 / 2] : List ℚ).length →
        |out.getD i 0 - ([1 / 2] : List ℚ).getD i 0| < 2 / 32768 :=
  c1_roundtrip_quant [1 / 2] (by norm_num)

/-- C8: the encoder is exactly clamp-scale-truncate with the asymmetric
PCM factors, serialized as two little-endian bytes per int16, through a
reversible base64 layer: decoding the text and re-pairing the bytes
recovers precisely the spec-side stored int16 of every sample. -/
theorem c8_encode_definition (data : List ℚ) :
    float32ArrayToBase64 data = btoa (int16sToBytes (data.map specStoredInt16)) ∧
    (atob (float32ArrayToBase64 data)).bind bytesToInt16s =
      some (data.map specStoredInt16) := by
  have hmap : data.map sampleToInt16 = data.map specStoredInt16 :=
    List.map_congr_left (fun x _ => sampleToInt16_eq_spec x)
  have hrange : ∀ v ∈ data.map sampleToInt16, -32768 ≤ v ∧ v < 32768 := by
    intro v hv
    simp only [List.mem_map] at hv
    obtain ⟨x, _, rfl⟩ := hv
    obtain ⟨_, hr1, hr2⟩ := sampleToInt16_spec x
    exact ⟨hr1, by omega⟩
  constructor
  · unfold float32ArrayToBase64
    rw [hmap]
  · unfold float32ArrayToBase64
    rw [atob_btoa _ (int16sToBytes_lt _), Option.some_bind,
        bytesToInt16s_int16sToBytes _ hrange, hmap]

/-- C10: encoder output is always decodable — the base64 text decodes to
exactly 2·n bytes (so the odd-byte-count failure of
`base64ToFloat32Array` is unreachable on encoder output), and decoding
returns exactly n samples, each in [-1, 32767/32768]. -/
theorem c10_encoder_decodable (data : List ℚ) :
    ∃ bytes out,
      atob (float32ArrayToBase64 data) = some bytes ∧
      bytes.length = 2 * data.length ∧
      base64ToFloat32Array (float32ArrayToBase64 data) = some out ∧
      out.length = data.length ∧
      ∀ y ∈ out, -1 ≤ y ∧ y ≤ 32767 / 32768 := by
  refine ⟨int16sToBytes (data.map sampleToInt16), _,
    by unfold float32ArrayToBase64; exact atob_btoa _ (int16sToBytes_lt _),
    by rw [int16sToBytes_length]; simp,
    roundtrip data, by simp, ?_⟩
  intro y hy
  simp only [List.mem_map] at hy
  obtain ⟨x, _, rfl⟩ := hy
  obtain ⟨_, hr1, hr2⟩ := sampleToInt16_spec x
  constructor
  · rw [le_div_iff₀ (by norm_num : (0:ℚ) < 32768)]
    have hc : ((-32768 : ℤ) : ℚ) ≤ (sampleToInt16 x : ℚ) := by exact_mod_cast hr1
    push_cast at hc ⊢
    linarith
  · rw [div_le_div_iff₀ (by norm_num : (0:ℚ) < 32768) (by norm_num : (0:ℚ) < 32768)]
    have hc : ((sampleToInt16 x : ℤ) : ℚ) ≤ ((32767 : ℤ) : ℚ) := by exact_mod_cast hr2
    push_cast at hc ⊢
    linarith

/-! ## Capture-side downsampling (InterviewSession.tsx lines 182-192) -/

/-- The inline downsampling loop: stride `inputRate / 16000`,
output length `floor(inputLength / stride)`, nearest-neighbor pick
`input[floor(i * stride)]`. -/
def downsample (inputRate : ℚ) (input : List ℚ) : List ℚ :=
  (List.range (⌊(input.length : ℚ) / (inputRate / 16000)⌋).toNat).map
    (fun i : ℕ => input.getD (⌊(i : ℚ) * (inputRate / 16000)⌋).toNat 0)

/-- The whole resampling branch of `onaudioprocess`: downsample only when
the capture rate exceeds 16000 Hz. -/
def processBlock (inputRate : ℚ) (input : List ℚ) : List ℚ :=
  if 16000 < inputRate then downsample inputRate input else input

/-- C9: when the capture rate exceeds 16000 Hz the block is decimated by
nearest neighbor — output length floor(n/stride), output[i] =
input[floor(i*stride)] with the index always in bounds — and at 16000 Hz
or below the block passes through unchanged. -/
theorem c9_downsample_decimation (inputRate : ℚ) (input : List ℚ) :
    (inputRate ≤ 16000 → processBlock inputRate input = input) ∧
    (16000 < inputRate →
      (processBlock inputRate input).length =
        (⌊(input.length : ℚ) / (inputRate / 16000)⌋).toNat ∧
      ∀ i, i < (processBlock inputRate input).length →
        (⌊(i : ℚ) * (inputRate / 16000)⌋).toNat < input.length ∧
        (processBlock inputRate input).getD i 0 =
          input.getD (⌊(i : ℚ) * (inputRate / 16000)⌋).toNat 0) := by
  constructor
  · intro hle
    simp only [processBlock, if_neg (not_lt.mpr hle)]
  · intro hgt
    have hpos : (0 : ℚ) < inputRate / 16000 := by positivity
    have hone : (1 : ℚ) < inputRate / 16000 := by
      rw [lt_div_iff₀ (by norm_num : (0:ℚ) < 16000)]
      linarith
    simp only [processBlock, if_pos hgt, downsample]
    refine ⟨by simp, ?_⟩
    intro i hi
    simp only [List.length_map, List.length_range] at hi
    have hbound : (⌊(i : ℚ) * (inputRate / 16000)⌋).toNat < input.length := by
      have hfi : ((i : ℤ) : ℚ) < (input.length : ℚ) / (inputRate / 16000) := by
        have h1 : (i : ℤ) < ⌊(input.length : ℚ) / (inputRate / 16000)⌋ := by
          have := hi
          omega
        calc ((i : ℤ) : ℚ) < (⌊(input.length : ℚ) / (inputRate / 16000)⌋ : ℚ) := by
              exact_mod_cast h1
          _ ≤ (input.length : ℚ) / (inputRate / 16000) := Int.floor_le _
      have hmul : (i : ℚ) * (inputRate / 16000) < (input.length : ℚ) := by
        rw [← lt_div_iff₀ hpos]
        exact_mod_cast hfi
      have hfl : (⌊(i : ℚ) * (inputRate / 16000)⌋ : ℚ) < (input.length : ℚ) :=
        lt_of_le_of_lt (Int.floor_le _) hmul
      have hlt : ⌊(i : ℚ) * (inputRate / 16000)⌋ < (input.length : ℤ) := by exact_mod_cast hfl
      have hge : 0 ≤ ⌊(i : ℚ) * (inputRate / 16000)⌋ := Int.floor_nonneg.mpr (by positivity)
      omega
    refine ⟨hbound, ?_⟩
    rw [List.getD_eq_getElem _ _ (by simpa using hi)]
    simp

theorem c9_downsample_decimation_witness :
    (processBlock 8000 [1, 2, 3, 4] = [1, 2, 3, 4]) ∧
    ((processBlock 48000 [1, 2, 3, 4, 5, 6]).length =
        (⌊((6 : ℚ)) / (48000 / 16000)⌋).toNat ∧
      ∀ i, i < (processBlock 48000 [1, 2, 3, 4, 5, 6]).length →
        (⌊(i : ℚ) * (48000 / 16000)⌋).toNat < ([1, 2, 3, 4, 5, 6] : List ℚ).length ∧
        (processBlock 48000 [1, 2, 3, 4, 5, 6]).getD i 0 =
          ([1, 2, 3, 4, 5, 6] : List ℚ).getD (⌊(i : ℚ) * (48000 / 16000)⌋).toNat 0) :=
  ⟨(c9_downsample_decimation 8000 [1, 2, 3, 4]).1 (by norm_num),
   (c9_downsample_decimation 48000 [1, 2, 3, 4, 5, 6]).2 (by norm_num)⟩

/-! ## Transcript aggregator (InterviewSession.tsx lines 274-296, 421-423) -/

/-- The two speaker roles of the live transcript. -/
inductive Role
  | user
  | model
deriving DecidableEq

/-- One entry of the running conversation log. -/
structure TranscriptEntry where
  role : Role
  text : String
deriving DecidableEq

/-- The `setTranscript` updater for one incoming fragment: if the most
recent entry has the fragment's role, append the text to it, else push a
new entry. -/
def addFragment (prev : List TranscriptEntry) (r : Role) (t : String) :
    List TranscriptEntry :=
  match prev.getLast? with
  | some last =>
    if last.role = r then prev.dropLast ++ [⟨last.role, last.text ++ t⟩]
    else prev ++ [⟨r, t⟩]
  | none => prev ++ [⟨r, t⟩]

/-- Folding a whole stream of role-tagged fragments into the log. -/
def processFragments (init : List TranscriptEntry) :
    List (Role × String) → List TranscriptEntry
  | [] => init
  | (r, t) :: rest => processFragments (addFragment init r t) rest

/-- Adjacent-entry distinctness is preserved by one fragment. -/
theorem addFragment_chain (log : List TranscriptEntry) (r : Role) (t : String)
    (h : List.Chain' (fun a b => a.role ≠ b.role) log) :
    List.Chain' (fun a b => a.role ≠ b.role) (addFragment log r t) := by
  unfold addFragment
  match hlast : log.getLast? with
  | none =>
    have : log = [] := List.getLast?_eq_none_iff.mp hlast
    subst this
    simp
  | some last =>
    dsimp only
    by_cases hrole : last.role = r
    · rw [if_pos hrole]
      have hlog : log.dropLast ++ [last] = log := by
        have hne : log ≠ [] := by
          intro hnil; rw [hnil] at hlast; simp at hlast
        rw [List.getLast?_eq_getLast _ hne, Option.some.injEq] at hlast
        rw [← hlast]
        exact List.dropLast_append_getLast hne
      rw [List.chain'_append]
      rw [← hlog, List.chain'_append] at h
      obtain ⟨h1, _, h3⟩ := h
      refine ⟨h1, List.chain'_singleton _, ?_⟩
      intro x hx y hy
      simp only [List.head?_cons, Option.mem_def, Option.some.injEq] at hy
      subst hy
      exact h3 x hx last (by simp)
    · rw [if_neg hrole]
      rw [List.chain'_append]
      refine ⟨h, List.chain'_singleton _, ?_⟩
      intro x hx y hy
      simp only [List.head?_cons, Option.mem_def, Option.some.injEq] at hy
      subst hy
      simp only [Option.mem_def] at hx
      rw [hlast, Option.some.injEq] at hx
      subst hx
      simpa using hrole

theorem processFragments_chain (frags : List (Role × String))
    (init : List TranscriptEntry)
    (h : List.Chain' (fun a b => a.role ≠ b.role) init) :
    List.Chain' (fun a b => a.role ≠ b.role) (processFragments init frags) := by
  induction frags generalizing init with
  | nil => exact h
  | cons p rest ih =>
    obtain ⟨r, t⟩ := p
    exact ih (addFragment init r t) (addFragment_chain init r t h)

/-- C3: the merge rule — same-role fragments extend the last entry,
role changes push a new entry — so the log never holds two adjacent
entries of one role, and the three fragments "Hel", "lo wor", "ld" of a
single role collapse into one entry "Hello world". -/
theorem c3_transcript_merge (frags : List (Role × String)) :
    List.Chain' (fun a b => a.role ≠ b.role) (processFragments [] frags) ∧
    (∀ r, processFragments [] [(r, "Hel"), (r, "lo wor"), (r, "ld")] =
      [⟨r, "Hello world"⟩]) ∧
    (∀ log (r : Role) (t : String) (last : TranscriptEntry),
      log.getLast? = some last →
      (last.role = r →
        addFragment log r t = log.dropLast ++ [⟨last.role, last.text ++ t⟩]) ∧
      (last.role ≠ r → addFragment log r t = log ++ [⟨r, t⟩])) := by
  refine ⟨processFragments_chain frags [] (by simp), ?_, ?_⟩
  · intro r
    cases r <;> rfl
  · intro log r t last hlast
    constructor
    · intro hrole
      unfold addFragment
      rw [hlast]
      simp only [if_pos hrole]
    · intro hrole
      unfold addFragment
      rw [hlast]
      simp only [if_neg hrole]

theorem c3_transcript_merge_witness :
    List.Chain' (fun a b => a.role ≠ b.role)
      (processFragments [] [(Role.user, "Hi"), (Role.model, "Hello")]) ∧
    processFragments [] [(Role.user, "Hel"), (Role.user, "lo wor"), (Role.user, "ld")] =
      [⟨Role.user, "Hello world"⟩] ∧
    addFragment [⟨Role.user, "a"⟩] Role.model "b" =
      [⟨Role.user, "a"⟩] ++ [⟨Role.model, "b"⟩] :=
  ⟨(c3_transcript_merge [(Role.user, "Hi"), (Role.model, "Hello")]).1,
   (c3_transcript_merge []).2.1 Role.user,
   ((c3_transcript_merge []).2.2 [⟨Role.user, "a"⟩] Role.model "b"
      ⟨Role.user, "a"⟩ rfl).2 (by decide)⟩

/-! ## Final transcript flattening (InterviewSession.tsx lines 421-423) -/

/-- JavaScript `Array.prototype.join(sep)`. -/
def joinSep (sep : String) : List String → String
  | [] => ""
  | [a] => a
  | a :: rest => a ++ sep ++ joinSep sep rest

/-- The role label used when flattening: Candidate for the user,
Interviewer for the model. -/
def roleLabel : Role → String
  | .user => "Candidate"
  | .model => "Interviewer"

/-- One flattened line of the final transcript. -/
def flattenLine (e : TranscriptEntry) : String :=
  roleLabel e.role ++ ": " ++ e.text

/-- The final transcript computed in `handleEndInterview`:
`transcript.map(...).join('\n\n') || transcriptTextRef.current ||
"No transcript available."` — JavaScript `||` picks the first non-empty
string. -/
def finalTranscript (log : List TranscriptEntry) (raw : String) : String :=
  if joinSep "\n\n" (log.map flattenLine) = "" then
    (if raw = "" then "No transcript available." else raw)
  else joinSep "\n\n" (log.map flattenLine)

theorem joinSep_ne_empty (sep : String) (a : String) (rest : List String)
    (ha : a ≠ "") : joinSep sep (a :: rest) ≠ "" := by
  match rest with
  | [] => simpa [joinSep] using ha
  | b :: rest' =>
    intro hcontra
    apply ha
    have hlen : (a ++ sep ++ joinSep sep (b :: rest')).length = 0 := by
      rw [show a ++ sep ++ joinSep sep (b :: rest') =
            joinSep sep (a :: b :: rest') from rfl, hcontra]
      rfl
    rw [String.length_append, String.length_append] at hlen
    have ha0 : a.data.length = 0 := by
      have := hlen
      simp only [String.length] at this ⊢
      omega
    exact String.ext (List.length_eq_zero.mp ha0)

theorem flattenLine_ne_empty (e : TranscriptEntry) : flattenLine e ≠ "" := by
  intro hcontra
  have hlen : (roleLabel e.role ++ ": " ++ e.text).length = 0 := by
    rw [show roleLabel e.role ++ ": " ++ e.text = flattenLine e from rfl, hcontra]
    rfl
  rw [String.length_append, String.length_append] at hlen
  have hpos : 0 < (roleLabel e.role).length := by
    cases e.role <;> decide
  omega

/-- C4, the claim as frozen, is false at the empty session: the
placeholder the code delivers is "No transcript available.", not
"No conversation recorded." (that string exists only in the enclosing
app as an unreachable fallback). -/
theorem c4_counterexample :
    finalTranscript [] "" = "No transcript available." ∧
    finalTranscript [] "" ≠ "No conversation recorded." := by
  exact ⟨rfl, by decide⟩

/-- C4 (amended): at session end the log entries are flattened to
"RoleLabel: text" lines joined by blank lines; an empty log falls back
to the raw accumulated text; and when that too is empty the transcript
delivered to onComplete is exactly "No transcript available.". -/
theorem c4_final_transcript (log : List TranscriptEntry) (raw : String) :
    (log ≠ [] → finalTranscript log raw =
      joinSep "\n\n" (log.map (fun e => roleLabel e.role ++ ": " ++ e.text))) ∧
    (log = [] → raw ≠ "" → finalTranscript log raw = raw) ∧
    (log = [] → raw = "" → finalTranscript log raw = "No transcript available.") := by
  refine ⟨?_, ?_, ?_⟩
  · intro hne
    match log with
    | [] => exact absurd rfl hne
    | e :: rest =>
      unfold finalTranscript
      rw [if_neg]
      · rfl
      · simp only [List.map_cons]
        exact joinSep_ne_empty _ _ _ (flattenLine_ne_empty e)
  · intro hnil hraw
    subst hnil
    unfold finalTranscript
    simp only [List.map_nil]
    rw [if_pos (show joinSep "\n\n" ([] : List String) = "" from rfl), if_neg hraw]
  · intro hnil hraw
    subst hnil hraw
    rfl

theorem c4_final_transcript_witness :
    (finalTranscript [⟨Role.user, "hi"⟩] "" =
      joinSep "\n\n" (([⟨Role.user, "hi"⟩] : List TranscriptEntry).map
        (fun e => roleLabel e.role ++ ": " ++ e.text))) ∧
    finalTranscript [] "leftover" = "leftover" ∧
    finalTranscript [] "" = "No transcript available." :=
  ⟨(c4_final_transcript [⟨Role.user, "hi"⟩] "").1 (by simp),
   (c4_final_transcript [] "leftover").2.1 rfl (by decide),
   (c4_final_transcript [] "").2.2 rfl rfl⟩

/-! ## Playback scheduler (InterviewSession.tsx lines 260-271) -/

/-- Start times chosen by the onmessage audio branch for a sequence of
decoded buffers.  Each event is (currentTime at arrival, buffer
duration); the running accumulator is `nextStartTimeRef`:
startTime = max(now, nextStartTime), then nextStartTime advances by the
buffer's duration. -/
def scheduleStarts (next : ℚ) : List (ℚ × ℚ) → List ℚ
  | [] => []
  | (now, dur) :: rest => max now next :: scheduleStarts (max now next + dur) rest

/-- No event at which currentTime had run ahead of the nextStartTime
cursor (the no-idle-gap side condition of the claim). -/
def noIdleGap (next : ℚ) : List (ℚ × ℚ) → Prop
  | [] => True
  | (now, dur) :: rest => now ≤ next ∧ noIdleGap (max now next + dur) rest

theorem scheduleStarts_length (next : ℚ) (evs : List (ℚ × ℚ)) :
    (scheduleStarts next evs).length = evs.length := by
  induction evs generalizing next with
  | nil => rfl
  | cons e rest ih =>
    obtain ⟨now, dur⟩ := e
    simp [scheduleStarts, ih]

theorem scheduleStarts_ge (next : ℚ) (evs : List (ℚ × ℚ))
    (hdur : ∀ e ∈ evs, 0 ≤ e.2) :
    ∀ i, i < evs.length →
      next + ((evs.take i).map Prod.snd).sum ≤ (scheduleStarts next evs).getD i 0 := by
  induction evs generalizing next with
  | nil => intro i hi; simp at hi
  | cons e rest ih =>
    obtain ⟨now, dur⟩ := e
    intro i hi
    match i with
    | 0 =>
      simp only [List.take_zero, List.map_nil, List.sum_nil, add_zero,
        scheduleStarts, List.getD_cons_zero]
      exact le_max_right _ _
    | Nat.succ j =>
      have hdur0 : (0 : ℚ) ≤ dur := hdur (now, dur) (by simp)
      have hrest : ∀ e ∈ rest, (0 : ℚ) ≤ e.2 := fun e he => hdur e (by simp [he])
      have hj : j < rest.length := by simpa using hi
      have := ih (max now next + dur) hrest j hj
      simp only [List.take_succ_cons, List.map_cons, List.sum_cons,
        scheduleStarts, List.getD_cons_succ]
      calc next + (dur + ((rest.take j).map Prod.snd).sum)
          ≤ max now next + dur + ((rest.take j).map Prod.snd).sum := by
            have : next ≤ max now next := le_max_right _ _
            linarith
        _ ≤ (scheduleStarts (max now next + dur) rest).getD j 0 := this

theorem scheduleStarts_no_overlap (next : ℚ) (evs : List (ℚ × ℚ)) :
    ∀ i, i + 1 < evs.length →
      (scheduleStarts next evs).getD i 0 + (evs.getD i (0, 0)).2 ≤
        (scheduleStarts next evs).getD (i + 1) 0 := by
  induction evs generalizing next with
  | nil => intro i hi; simp at hi
  | cons e rest ih =>
    obtain ⟨now, dur⟩ := e
    intro i hi
    match i with
    | 0 =>
      match rest with
      | [] => simp at hi
      | (now2, dur2) :: rest2 =>
        simp only [scheduleStarts, List.getD_cons_zero, List.getD_cons_succ]
        exact le_max_right _ _
    | Nat.succ j =>
      have hj : j + 1 < rest.length := by simpa using hi
      simpa only [scheduleStarts, List.getD_cons_succ] using
        ih (max now next + dur) j hj

theorem scheduleStarts_exact (next : ℚ) (evs : List (ℚ × ℚ))
    (hgap : noIdleGap next evs) :
    ∀ i, i < evs.length →
      (scheduleStarts next evs).getD i 0 = next + ((evs.take i).map Prod.snd).sum := by
  induction evs generalizing next with
  | nil => intro i hi; simp at hi
  | cons e rest ih =>
    obtain ⟨now, dur⟩ := e
    obtain ⟨hnow, hgrest⟩ := hgap
    have hmax : max now next = next := max_eq_right hnow
    intro i hi
    match i with
    | 0 =>
      simp only [scheduleStarts, List.getD_cons_zero, hmax, List.take_zero,
        List.map_nil, List.sum_nil, add_zero]
    | Nat.succ j =>
      have hj : j < rest.length := by simpa using hi
      rw [hmax] at hgrest
      have := ih (next + dur) hgrest j hj
      simp only [scheduleStarts, List.getD_cons_succ, List.take_succ_cons,
        List.map_cons, List.sum_cons, hmax]
      rw [this]
      ring

/-- C2: every scheduled start is max(currentTime, nextStartTime), the
cursor advances by the duration (both by definition of
`scheduleStarts`), hence from cursor 0 the i-th start time is at least
the sum of the previous durations, consecutive buffers never overlap,
and with no idle gaps the start times equal the prefix sums exactly. -/
theorem c2_playback_monotone (evs : List (ℚ × ℚ))
    (hdur : ∀ e ∈ evs, 0 ≤ e.2) :
    (∀ now dur next rest, scheduleStarts next ((now, dur) :: rest) =
      max now next :: scheduleStarts (max now next + dur) rest) ∧
    (∀ i, i < evs.length →
      ((evs.take i).map Prod.snd).sum ≤ (scheduleStarts 0 evs).getD i 0) ∧
    (∀ i, i + 1 < evs.length →
      (scheduleStarts 0 evs).getD i 0 + (evs.getD i (0, 0)).2 ≤
        (scheduleStarts 0 evs).getD (i + 1) 0) ∧
    (noIdleGap 0 evs → ∀ i, i < evs.length →
      (scheduleStarts 0 evs).getD i 0 = ((evs.take i).map Prod.snd).sum) := by
  refine ⟨fun _ _ _ _ => rfl, ?_, scheduleStarts_no_overlap 0 evs, ?_⟩
  · intro i hi
    have := scheduleStarts_ge 0 evs hdur i hi
    linarith
  · intro hgap i hi
    have := scheduleStarts_exact 0 evs hgap i hi
    linarith [this]

theorem c2_playback_monotone_witness :
    ((([((0 : ℚ), (2 : ℚ)), (1, 3), (9, 1)] : List (ℚ × ℚ)).take 2).map Prod.snd).sum ≤
      (scheduleStarts 0 [((0 : ℚ), (2 : ℚ)), (1, 3), (9, 1)]).getD 2 0 :=
  (c2_playback_monotone [((0 : ℚ), (2 : ℚ)), (1, 3), (9, 1)]
    (by norm_num)).2.1 2 (by norm_num)

/-! ## Session state machine and asynchronous callbacks
(InterviewSession.tsx lines 52-338, 413-447) -/

/-- The fields of an inbound live-server message the handler reads:
an optional audio payload and the two optional transcript fragments. -/
structure ServerMessage where
  audioData : Option (List Char)
  inputTrans : Option String
  outputTrans : Option String

/-- The session state mutable through refs and React state:
`connectionIdRef` (None once invalidated), the connection / mic / ended
flags, the countdown, the transcript log and raw buffer, the playback
cursor with the starts issued so far, the frames handed to the channel's
send, the session handle and stream flags, the error banner, and the
completion callback's invocation count and payload. -/
structure SessionState where
  activeGen : Option ℕ
  isConnected : Bool
  micOn : Bool
  isEnded : Bool
  hasStarted : Bool
  intervalLive : Bool
  timeLeft : ℕ
  log : List TranscriptEntry
  raw : String
  nextStart : ℚ
  scheduled : List ℚ
  sent : List (List Char)
  activeSession : Bool
  streamSet : Bool
  errorMsg : Option String
  completeCalls : ℕ
  delivered : Option String

/-- `cleanupAudio`: invalidate the generation, drop the session handle,
clear the connected flag, stop and drop the stream. -/
def cleanupAudio (st : SessionState) : SessionState :=
  { st with activeGen := none, activeSession := false, isConnected := false,
            streamSet := false }

/-- `handleEndInterview`: idempotent guard on `isEndedRef`, then
teardown, then the final transcript handed to `onComplete`. -/
def handleEndInterview (st : SessionState) : SessionState :=
  if st.isEnded then st
  else
    let st1 := cleanupAudio { st with isEnded := true }
    { st1 with completeCalls := st1.completeCalls + 1,
               delivered := some (finalTranscript st1.log st1.raw) }

/-- One countdown-interval tick: at 1 or below, clear the interval, end
the interview and pin the clock to 0; otherwise decrement. -/
def timerTick (st : SessionState) : SessionState :=
  if st.intervalLive then
    if st.timeLeft ≤ 1 then
      handleEndInterview { st with intervalLive := false, timeLeft := 0 }
    else { st with timeLeft := st.timeLeft - 1 }
  else st

/-- The `onopen` callback: only a generation-current callback marks the
channel connected. -/
def onopen (gen : ℕ) (st : SessionState) : SessionState :=
  if st.activeGen = some gen then { st with isConnected := true } else st

/-- The `onclose` callback. -/
def onclose (gen : ℕ) (st : SessionState) : SessionState :=
  if st.activeGen = some gen then { st with isConnected := false } else st

/-- The `onerror` callback: mark disconnected and raise the banner, but
do not end the session. -/
def onerror (gen : ℕ) (st : SessionState) : SessionState :=
  if st.activeGen = some gen then
    { st with isConnected := false,
              errorMsg := some "Connection interrupted. Please try restarting." }
  else st

/-- The transcript part of the `onmessage` body: raw buffer append plus
the merge rule, user fragment first, then model fragment. -/
def applyTranscripts (msg : ServerMessage) (st : SessionState) : SessionState :=
  let st1 := match msg.inputTrans with
    | some t => { st with raw := st.raw ++ t, log := addFragment st.log .user t }
    | none => st
  match msg.outputTrans with
  | some t => { st1 with raw := st1.raw ++ t, log := addFragment st1.log .model t }
  | none => st1

/-- The `onmessage` callback: stale-generation guard, then decode and
schedule any audio payload (a decode throw aborts the whole try block),
then merge the transcript fragments. -/
def onmessage (gen : ℕ) (now : ℚ) (msg : ServerMessage) (st : SessionState) :
    SessionState :=
  if st.activeGen ≠ some gen then st
  else
    match msg.audioData with
    | some data =>
      match base64ToFloat32Array data with
      | none => st
      | some samples =>
        applyTranscripts msg
          { st with scheduled := st.scheduled ++ [max now st.nextStart],
                    nextStart := max now st.nextStart + (samples.length : ℚ) / 24000 }
    | none => applyTranscripts msg st

/-- The `onaudioprocess` capture callback: drop the block when stale,
disconnected, muted, or without a session handle; otherwise resample,
encode and hand to send — a send that throws (`sendOk = false`) is
swallowed and changes nothing. -/
def onaudioprocess (gen : ℕ) (inputRate : ℚ) (block : List ℚ) (sendOk : Bool)
    (st : SessionState) : SessionState :=
  if st.activeGen ≠ some gen ∨ st.isConnected = false ∨ st.micOn = false then st
  else if st.activeSession = false then st
  else if sendOk then
    { st with sent := st.sent ++ [float32ArrayToBase64 (processBlock inputRate block)] }
  else st

/-- The continuation after `getUserMedia` resolves: a stale generation
stops the fresh stream and returns without touching state. -/
def micContinuation (gen : ℕ) (st : SessionState) : SessionState :=
  if st.activeGen = some gen then { st with streamSet := true } else st

/-- The continuation after `live.connect` resolves: a stale generation
closes the fresh session instead of installing it. -/
def connectContinuation (gen : ℕ) (st : SessionState) : SessionState :=
  if st.activeGen = some gen then { st with activeSession := true } else st

/-- The two triggers that can end a running session. -/
inductive SessionEvent
  | tick
  | userEnd

def stepEvent (st : SessionState) : SessionEvent → SessionState
  | .tick => timerTick st
  | .userEnd => handleEndInterview st

def runEvents (st : SessionState) : List SessionEvent → SessionState
  | [] => st
  | e :: rest => runEvents (stepEvent st e) rest

/-- The state `startSession` establishes for a fresh generation `g`. -/
def startState (g duration : ℕ) : SessionState :=
  { activeGen := some g, isConnected := false, micOn := true, isEnded := false,
    hasStarted := true, intervalLive := true, timeLeft := duration * 60,
    log := [], raw := "", nextStart := 0, scheduled := [], sent := [],
    activeSession := false, streamSet := false, errorMsg := none,
    completeCalls := 0, delivered := none }

/-! ## Claim theorems for the session state machine -/

/-- The ending discipline invariant: the completion callback has fired
exactly when the ended flag is set. -/
def endedInv (st : SessionState) : Prop :=
  st.completeCalls = (if st.isEnded then 1 else 0)

theorem handleEndInterview_inv (st : SessionState) (h : endedInv st) :
    endedInv (handleEndInterview st) := by
  unfold handleEndInterview endedInv at *
  by_cases he : st.isEnded
  · rw [if_pos he]
    exact h
  · rw [if_neg he]
    rw [if_neg he] at h
    simp [cleanupAudio, h]

theorem timerTick_inv (st : SessionState) (h : endedInv st) :
    endedInv (timerTick st) := by
  unfold timerTick
  split
  · split
    · exact handleEndInterview_inv _ h
    · exact h
  · exact h

theorem runEvents_inv (evs : List SessionEvent) (st : SessionState)
    (h : endedInv st) : endedInv (runEvents st evs) := by
  induction evs generalizing st with
  | nil => exact h
  | cons e rest ih =>
    cases e with
    | tick => exact ih (timerTick st) (timerTick_inv st h)
    | userEnd => exact ih (handleEndInterview st) (handleEndInterview_inv st h)

theorem runEvents_cons (st : SessionState) (e : SessionEvent)
    (rest : List SessionEvent) :
    runEvents st (e :: rest) = runEvents (stepEvent st e) rest := rfl

theorem stepEvent_tick (st : SessionState) :
    stepEvent st SessionEvent.tick = timerTick st := rfl

theorem timerTick_dead (st : SessionState) (h : st.intervalLive = false) :
    timerTick st = st := by
  unfold timerTick
  rw [h]
  simp

theorem runTicks_dead (n : ℕ) (st : SessionState) (h : st.intervalLive = false) :
    runEvents st (List.replicate n .tick) = st := by
  induction n with
  | zero => rfl
  | succ k ih =>
    rw [List.replicate_succ]
    show runEvents (timerTick st) (List.replicate k .tick) = st
    rw [timerTick_dead st h]
    exact ih

theorem ticks_reach_end (n : ℕ) (st : SessionState)
    (hended : st.isEnded = false) (hlive : st.intervalLive = true)
    (htl1 : 1 ≤ st.timeLeft) (htln : st.timeLeft ≤ n) :
    (runEvents st (List.replicate n .tick)).isEnded = true ∧
    (runEvents st (List.replicate n .tick)).completeCalls = st.completeCalls + 1 ∧
    (runEvents st (List.replicate n .tick)).delivered =
      some (finalTranscript st.log st.raw) := by
  induction n generalizing st with
  | zero => omega
  | succ k ih =>
    rw [List.replicate_succ, runEvents_cons, stepEvent_tick]
    by_cases hone : st.timeLeft ≤ 1
    · have hfire : timerTick st =
          handleEndInterview { st with intervalLive := false, timeLeft := 0 } := by
        unfold timerTick
        rw [hlive, if_pos hone]
        simp
      have hended' : handleEndInterview { st with intervalLive := false, timeLeft := 0 } =
          { st with intervalLive := false, timeLeft := 0, isEnded := true,
                    activeGen := none, activeSession := false, isConnected := false,
                    streamSet := false,
                    completeCalls := st.completeCalls + 1,
                    delivered := some (finalTranscript st.log st.raw) } := by
        unfold handleEndInterview cleanupAudio
        simp [hended]
      rw [hfire, hended', runTicks_dead k _ rfl]
      exact ⟨rfl, rfl, rfl⟩
    · have hstep : timerTick st = { st with timeLeft := st.timeLeft - 1 } := by
        unfold timerTick
        rw [hlive, if_neg hone]
        simp
      rw [hstep]
      exact ih { st with timeLeft := st.timeLeft - 1 } hended hlive
        (by simp only []; omega) (by simp only []; omega)

/-- C5: from any state with the ended flag clear and no completion yet
(in particular a fresh generation), every interleaving of countdown
ticks and explicit end requests fires the completion callback at most
once; and a running countdown that reaches 0 with no user end-request
ends the session exactly once, delivering the accumulated transcript. -/
theorem c5_end_at_most_once (st : SessionState) (evs : List SessionEvent)
    (hcalls : st.completeCalls = 0) (hended : st.isEnded = false) :
    (runEvents st evs).completeCalls ≤ 1 ∧
    (st.intervalLive = true → ∀ n, 1 ≤ st.timeLeft → st.timeLeft ≤ n →
      (runEvents st (List.replicate n .tick)).isEnded = true ∧
      (runEvents st (List.replicate n .tick)).completeCalls = 1 ∧
      (runEvents st (List.replicate n .tick)).delivered =
        some (finalTranscript st.log st.raw)) := by
  constructor
  · have hinv : endedInv st := by unfold endedInv; rw [hended, hcalls]; simp
    have := runEvents_inv evs st hinv
    unfold endedInv at this
    split at this <;> omega
  · intro hlive n h1 h2
    have := ticks_reach_end n st hended hlive h1 h2
    rw [hcalls] at this
    exact this

theorem c5_end_at_most_once_witness :
    (runEvents (startState 7 3) [.userEnd, .tick, .userEnd]).completeCalls ≤ 1 ∧
    ((runEvents (startState 7 3) (List.replicate 180 .tick)).isEnded = true ∧
     (runEvents (startState 7 3) (List.replicate 180 .tick)).completeCalls = 1 ∧
     (runEvents (startState 7 3) (List.replicate 180 .tick)).delivered =
       some (finalTranscript (startState 7 3).log (startState 7 3).raw)) :=
  ⟨(c5_end_at_most_once (startState 7 3) [.userEnd, .tick, .userEnd] rfl rfl).1,
   (c5_end_at_most_once (startState 7 3) [] rfl rfl).2 rfl 180
     (by decide) (by decide)⟩

/-- C6: every asynchronous callback — capture block, channel
open/message/close/error, and the post-await continuations of
microphone acquisition and channel connect — is a strict no-op when the
generation token it carries is no longer the active one. -/
theorem c6_stale_generation_noop (gen : ℕ) (now : ℚ) (msg : ServerMessage)
    (inputRate : ℚ) (block : List ℚ) (sendOk : Bool) (st : SessionState)
    (h : st.activeGen ≠ some gen) :
    onopen gen st = st ∧
    onmessage gen now msg st = st ∧
    onclose gen st = st ∧
    onerror gen st = st ∧
    onaudioprocess gen inputRate block sendOk st = st ∧
    micContinuation gen st = st ∧
    connectContinuation gen st = st := by
  refine ⟨?_, ?_, ?_, ?_, ?_, ?_, ?_⟩
  · unfold onopen
    rw [if_neg h]
  · unfold onmessage
    rw [if_pos h]
  · unfold onclose
    rw [if_neg h]
  · unfold onerror
    rw [if_neg h]
  · unfold onaudioprocess
    rw [if_pos (Or.inl h)]
  · unfold micContinuation
    rw [if_neg h]
  · unfold connectContinuation
    rw [if_neg h]

theorem c6_stale_generation_noop_witness :
    onopen 3 (startState 7 3) = startState 7 3 ∧
    onmessage 3 0 ⟨none, none, none⟩ (startState 7 3) = startState 7 3 ∧
    onclose 3 (startState 7 3) = startState 7 3 ∧
    onerror 3 (startState 7 3) = startState 7 3 ∧
    onaudioprocess 3 48000 [] true (startState 7 3) = startState 7 3 ∧
    micContinuation 3 (startState 7 3) = startState 7 3 ∧
    connectContinuation 3 (startState 7 3) = startState 7 3 :=
  c6_stale_generation_noop 3 0 ⟨none, none, none⟩ 48000 [] true (startState 7 3)
    (by simp [startState])

/-- C7: a captured block is dropped outright when the generation is
stale, the channel is not open (no connected flag or no session
handle), or the mic is muted; otherwise it is resampled, encoded and
handed to send; and a throwing send is swallowed — it leaves the whole
state untouched, in particular never ending the session or raising the
error banner. -/
theorem c7_capture_gating (gen : ℕ) (inputRate : ℚ) (block : List ℚ)
    (sendOk : Bool) (st : SessionState) :
    (st.activeGen ≠ some gen ∨ st.isConnected = false ∨ st.micOn = false ∨
        st.activeSession = false →
      onaudioprocess gen inputRate block sendOk st = st) ∧
    (st.activeGen = some gen → st.isConnected = true → st.micOn = true →
      st.activeSession = true →
      onaudioprocess gen inputRate block true st =
        { st with sent := st.sent ++
            [float32ArrayToBase64 (processBlock inputRate block)] }) ∧
    (onaudioprocess gen inputRate block false st = st) ∧
    ((onaudioprocess gen inputRate block sendOk st).isEnded = st.isEnded ∧
     (onaudioprocess gen inputRate block sendOk st).errorMsg = st.errorMsg ∧
     (onaudioprocess gen inputRate block sendOk st).isConnected = st.isConnected ∧
     (onaudioprocess gen inputRate block sendOk st).activeGen = st.activeGen) := by
  refine ⟨?_, ?_, ?_, ?_⟩
  · intro hdrop
    unfold onaudioprocess
    rcases hdrop with h | h | h | h
    · rw [if_pos (Or.inl h)]
    · rw [if_pos (Or.inr (Or.inl h))]
    · rw [if_pos (Or.inr (Or.inr h))]
    · split
      · rfl
      · simp [h]
  · intro hgen hconn hmic hsess
    unfold onaudioprocess
    rw [if_neg (by simp [hgen, hconn, hmic]), if_neg (by simp [hsess]), if_pos rfl]
  · unfold onaudioprocess
    split
    · rfl
    · split
      · rfl
      · rw [if_neg (by simp)]
  · unfold onaudioprocess
    split
    · exact ⟨rfl, rfl, rfl, rfl⟩
    · split
      · exact ⟨rfl, rfl, rfl, rfl⟩
      · split
        · exact ⟨rfl, rfl, rfl, rfl⟩
        · exact ⟨rfl, rfl, rfl, rfl⟩

theorem c7_capture_gating_witness :
    onaudioprocess 7 48000 [0] true
        { startState 7 3 with isConnected := true, activeSession := true } =
      { startState 7 3 with isConnected := true, activeSession := true, sent := (startState 7 3).sent ++ [float32ArrayToBase64 (processBlock 48000 [0])] } ∧
    onaudioprocess 7 48000 [0] true { startState 7 3 with micOn := false } =
      { startState 7 3 with micOn := false } :=
  ⟨by
    have h := (c7_capture_gating 7 48000 [0] true
      { startState 7 3 with isConnected := true, activeSession := true }).2.1
      rfl rfl rfl rfl
    simpa [startState] using h,
   (c7_capture_gating 7 48000 [0] true
      { startState 7 3 with micOn := false }).1 (Or.inr (Or.inr (Or.inl rfl)))⟩

end HRInterviewer
